import Mathlib

/-!
Verification of the projector-based embedding driver (`src/embed_proc.py`) of
PythonProjectorEmbedding.

Matrices are embedded as total functions `ℕ → ℕ → ℚ`; all contractions carry the
explicit dimension over which the Python `@` products run (the AO count).  Orbital
coefficient matrices are embedded as lists of columns (`List (List ℚ)`), matching the
column-wise slicing the partitioners perform.  External collaborators (pyscf solvers,
the localization kernel, scipy and numpy linear algebra, and the basis utilities of
`embed_utils`) are modelled as oracle function fields of the `Oracles` structure; facts
about their outputs that a claim needs (for example that numpy returns square right
singular vectors) appear as explicit hypotheses.
-/

abbrev Vec := List ℚ

abbrev Mat := ℕ → ℕ → ℚ

def madd (A B : Mat) : Mat := fun i j => A i j + B i j

def msub (A B : Mat) : Mat := fun i j => A i j - B i j

def msmul (c : ℚ) (A : Mat) : Mat := fun i j => c * A i j

/-- Matrix product, contracting over the first `n` indices (the Python `@` on
`n`-dimensional square arrays). -/
def mmul (n : ℕ) (A B : Mat) : Mat := fun i j => ∑ x ∈ Finset.range n, A i x * B x j

/-- Restriction of a matrix to the submatrix given by a list of row/column indices:
the Python `A[np.ix_(sel, sel)]`. -/
def subMat (A : Mat) (sel : List ℕ) : Mat := fun i j => A (sel.getD i 0) (sel.getD j 0)

/-- A molecule as the driver sees it: electron count, AO count, and the basis as a
list of shells, each shell a list of primitives. -/
structure Mol where
  nelectron : ℤ
  nao : ℕ
  basis : List (List ℚ)
deriving DecidableEq

/-- `mol.build(basis=b)`: rebuild the molecule with a new basis. -/
def molBuild (mol : Mol) (b : List (List ℚ)) : Mol := { mol with basis := b }

/-- Modelled from the spec: `flatten_basis` lives in `embed_utils`, which is not under
`src/`.  The spec says the truncation stage must "rebuild the molecular basis in a
flattened single-primitive-per-shell form"; each primitive of each shell becomes its
own shell, leaving the AO count unchanged. -/
def flatten_basis (mol : Mol) : List (List ℚ) :=
  (mol.basis.map fun sh => sh.map fun p => [p]).flatten

/-- Python `int(...)` truncation toward zero of a rational. -/
def intTrunc (q : ℚ) : ℤ := q.num / (q.den : ℤ)

/-- The solver family selected by string dispatch, with the density-fitting
configuration carried along. -/
inductive SolverKind where
  | rhf : SolverKind
  | rks (xc : String) : SolverKind
deriving DecidableEq

structure SolverCfg where
  kind : SolverKind
  df : Bool
  auxbasis : Option String
deriving DecidableEq

/-- The whole-system mean-field result, as consumed by the driver (pyscf interface). -/
structure MeanField where
  mol : Mol
  mo_coeff : List Vec
  mo_occ : List ℚ
  get_ovlp : Mat
  get_fock : Mat
  get_veff : Mat → Mat
  energy_elec : Mat → Mat → Mat → ℚ
  e_tot : ℚ
  offsets : List (ℕ × ℕ)
  xc : Option String
  with_df : Option String

/-- All external collaborators (pyscf, scipy, numpy, embed_utils) as oracles.
`svd rows cols M` returns the singular values, the row count of the returned right
singular vector matrix, and that matrix; `argpartLast` models
`np.argpartition(·, -1)[-1]`. -/
structure Oracles where
  loc : Mol → List Vec → List Vec
  sqrtm : Mat → Mat
  svd : ℕ → ℕ → Mat → List ℚ × ℕ × Mat
  argpartLast : List ℚ → ℕ
  screen_aos : Mol → Option (List ℕ) → Mat → Mat → ℚ → List ℕ × List Bool
  truncate_basis : Mol → List Bool → List (List ℚ)
  purify : Mat → Mat → Mat
  scf_kernel : SolverCfg → Mol → Mat → Mat → ℚ
  scf_rdm1 : SolverCfg → Mol → Mat → Mat → Mat
  scf_veff : SolverCfg → Mol → Mat → Mat
  scf_energy_elec : SolverCfg → Mol → Mat → Mat → Mat → ℚ
  scf_energy_nuc : SolverCfg → Mol → ℚ
  mp2_e_corr : SolverCfg → Mol → Mat → Mat → ℚ
  ccsd_emp2 : SolverCfg → Mol → Mat → Mat → ℚ
  ccsd_e_corr : SolverCfg → Mol → Mat → Mat → ℚ
  ccsd_t : SolverCfg → Mol → Mat → Mat → ℚ

/-- Modelled from the spec: `make_dm` lives in `embed_utils`, which is not under
`src/`.  The spec describes the DensityBuilder as building a one-particle density
matrix from an orbital-coefficient/occupation pair, `D = C · diag(occ) · Cᵀ`, so
`D i j = Σ_k occ_k · C i k · C j k`. -/
def make_dm (cols : List Vec) (occ : List ℚ) : Mat :=
  fun i j => (List.zipWith (fun c o => o * c.getD i 0 * c.getD j 0) cols occ).sum

/-- `pyscf_mf.mo_coeff[:, pyscf_mf.mo_occ > 0]`: the occupied coefficient columns. -/
def occCols (mf : MeanField) : List Vec :=
  ((mf.mo_coeff.zip mf.mo_occ).filter fun co => decide (0 < co.2)).map Prod.fst

/-- A partition function of the signature `(pyscf_mf, active_atoms, c_occ)`;
the external-oracle record is threaded through for the localization kernel. -/
abbrev Partitioner := Oracles → MeanField → Option (List ℕ) → Option (List Vec) → List Vec × List Vec

/-- The shared first lines of both threshold partitioners: take the provided occupied
coefficients (or derive them from the mean-field result) and localize when requested. -/
def workingOcc (ext : Oracles) (mf : MeanField) (localize : Bool) (c_occ0 : Option (List Vec)) :
    List Vec :=
  let c_occ := c_occ0.getD (occCols mf)
  if localize then ext.loc mf.mol c_occ else c_occ

/-- The Mulliken population of orbital `mo_i` on one atom, `einsum('ij,ij->')` of the
orbital density and the overlap, both restricted to the AO columns `[lo, hi)`. -/
def atomPop (nao : ℕ) (rdm ovlp : Mat) (lo hi : ℕ) : ℚ :=
  ∑ i ∈ Finset.range nao, ∑ j ∈ Finset.Ico lo hi, rdm i j * ovlp i j

/-- The per-orbital activity test of `mulliken_partition`: some active atom carries a
population strictly above the charge threshold (the Python loop with `break`). -/
def mullikenIsActive (mf : MeanField) (t : ℚ) (c_occ : List Vec) (atoms : List ℕ)
    (mo_i : ℕ) : Bool :=
  let rdm := make_dm [c_occ.getD mo_i []] [mf.mo_occ.getD mo_i 0]
  atoms.any fun atom =>
    let o := mf.offsets.getD atom (0, 0)
    decide (t < atomPop mf.mol.nao rdm mf.get_ovlp o.1 o.2)

def mullikenActiveIdx (mf : MeanField) (t : ℚ) (c_occ : List Vec) (atoms : List ℕ) :
    List ℕ :=
  (List.range c_occ.length).filter (mullikenIsActive mf t c_occ atoms)

/-- `[i for i in range(...) if i not in active_mos]`. -/
def mullikenFrozenIdx (mf : MeanField) (t : ℚ) (c_occ : List Vec) (atoms : List ℕ) :
    List ℕ :=
  (List.range c_occ.length).filter fun i => !((mullikenActiveIdx mf t c_occ atoms).contains i)

/-- `mulliken_partition(charge_threshold, localize)` and the closure it returns. -/
def mulliken_partition (charge_threshold : ℚ) (localize : Bool) : Partitioner :=
  fun ext mf active_atoms c_occ0 =>
    let c_occ := workingOcc ext mf localize c_occ0
    match active_atoms with
    | some [] => ([], c_occ)
    | none => (c_occ, [])
    | some atoms =>
      let active_mos := mullikenActiveIdx mf charge_threshold c_occ atoms
      let frozen_mos := mullikenFrozenIdx mf charge_threshold c_occ atoms
      (active_mos.map fun i => c_occ.getD i [], frozen_mos.map fun i => c_occ.getD i [])

/-- AOs sitting on the given atoms: the concatenated `range(offset, extent)` blocks. -/
def activeAOsOf (mf : MeanField) (atoms : List ℕ) : List ℕ :=
  (atoms.map fun atom =>
    let o := mf.offsets.getD atom (0, 0)
    List.range' o.1 (o.2 - o.1)).flatten

/-- The per-orbital activity test of `occupancy_partition`: the trace of
`(make_dm(col, 1) @ S)` restricted to the active-active AO block exceeds the
threshold. -/
def occIsActive (mf : MeanField) (t : ℚ) (c_occ : List Vec) (active_aos : List ℕ)
    (mo_i : ℕ) : Bool :=
  let rdm := make_dm [c_occ.getD mo_i []] [1]
  let dm := mmul mf.mol.nao rdm mf.get_ovlp
  decide (t < (active_aos.map fun a => dm a a).sum)

/-- `occupancy_partition(occupancy_threshold, localize)` and the closure it returns. -/
def occupancy_partition (occupancy_threshold : ℚ) (localize : Bool) : Partitioner :=
  fun ext mf active_atoms c_occ0 =>
    let c_occ := workingOcc ext mf localize c_occ0
    match active_atoms with
    | some [] => ([], c_occ)
    | none => (c_occ, [])
    | some atoms =>
      let active_aos := activeAOsOf mf atoms
      let pr := (List.range c_occ.length).partition (occIsActive mf occupancy_threshold c_occ active_aos)
      (pr.1.map fun i => c_occ.getD i [], pr.2.map fun i => c_occ.getD i [])

/-- The row-restricted orthogonalized occupied coefficients of `spade_partition`:
`(overlap_sqrt @ c_occ)[active_aos, :]`. -/
def spadeOrthMat (ext : Oracles) (mf : MeanField) (c_occ : List Vec) (active_aos : List ℕ) :
    Mat :=
  fun i j =>
    ∑ x ∈ Finset.range mf.mol.nao,
      ext.sqrtm mf.get_ovlp (active_aos.getD i 0) x * (c_occ.getD j []).getD x 0

/-- Column `j` of `c_occ @ v_vecs.T`: the occupied coefficients rotated by the right
singular vectors. -/
def rotCol (nao : ℕ) (c_occ : List Vec) (v : Mat) (j : ℕ) : Vec :=
  (List.range nao).map fun i =>
    ∑ m ∈ Finset.range c_occ.length, (c_occ.getD m []).getD i 0 * v j m

/-- The singular value list padded by a single zero when its length differs from the
row count of the right singular vectors, exactly as the source does. -/
def spadePadded (s_vals : List ℚ) (vdim : ℕ) : List ℚ :=
  if s_vals.length ≠ vdim then s_vals ++ [0] else s_vals

/-- The consecutive differences as the source computes them:
`[-(s_vals[i + 1] - s_vals[i]) for i in range(len(s_vals) - 1)]`. -/
def codeDeltas (s' : List ℚ) : List ℚ :=
  (List.range (s'.length - 1)).map fun i => -(s'.getD (i + 1) 0 - s'.getD i 0)

/-- The consecutive gaps as the spec words them, `g_i = s_i - s_{i+1}`. -/
def specGaps (s' : List ℚ) : List ℚ :=
  (List.range (s'.length - 1)).map fun i => s'.getD i 0 - s'.getD (i + 1) 0

/-- The number of active orbitals `spade_partition` selects from the singular values:
`none` models the `ValueError` that `np.argpartition` raises on an empty gap list. -/
def spadeNAct (argpartLast : List ℚ → ℕ) (s_vals : List ℚ) (vdim : ℕ) : Option ℕ :=
  if s_vals.length = 1 then some 1
  else
    let deltas := codeDeltas (spadePadded s_vals vdim)
    if deltas = [] then none else some (argpartLast deltas + 1)

/-- `spade_partition`.  `none` models the two crashes of the source: iterating over
`active_atoms=None` (`TypeError`) and `np.argpartition` on an empty gap list
(`ValueError`).  The `min` in the active slice models numpy slice clamping. -/
def spade_partition (ext : Oracles) (mf : MeanField) (active_atoms : Option (List ℕ))
    (c_occ0 : Option (List Vec)) : Option (List Vec × List Vec) :=
  match active_atoms with
  | none => none
  | some atoms =>
    let c_occ := c_occ0.getD (occCols mf)
    let active_aos := activeAOsOf mf atoms
    let sv := ext.svd active_aos.length c_occ.length (spadeOrthMat ext mf c_occ active_aos)
    let s_vals := sv.1
    let vdim := sv.2.1
    let v_vecs := sv.2.2
    match spadeNAct ext.argpartLast s_vals vdim with
    | none => none
    | some n_act =>
      some ((List.range (min n_act vdim)).map (rotCol mf.mol.nao c_occ v_vecs),
            (List.range' n_act (vdim - n_act)).map (rotCol mf.mol.nao c_occ v_vecs))

/-- The state `embedding_procedure` has computed just before method dispatch. -/
structure PrepOut where
  mol : Mol
  densAB : Mat
  densA : Mat
  densB : Mat
  vA : Mat
  hcore : Mat
  energyA : ℚ

/-- Lines 148-175 of `embed_proc.py`: densities, embedding Hamiltonian, the
unembedded active electronic energy, and the electron count of the active system. -/
def prepCore (ext : Oracles) (init_mf : MeanField) (active_atoms : Option (List ℕ))
    (mu_val : Option ℚ) (distribute_mos : Partitioner) : PrepOut :=
  let mol := init_mf.mol
  let ovlp := init_mf.get_ovlp
  let c_occ := occCols init_mf
  let c_occ_a := (distribute_mos ext init_mf active_atoms (some c_occ)).1
  let dens_ab := make_dm c_occ (init_mf.mo_occ.filter fun q => decide (0 < q))
  let dens_a := make_dm c_occ_a (init_mf.mo_occ.take c_occ_a.length)
  let dens_b := msub dens_ab dens_a
  let f_ab := init_mf.get_fock
  let v_a := init_mf.get_veff dens_a
  let n := init_mf.mol.nao
  let hcore0 := msub f_ab v_a
  let hcore_a_in_b :=
    match mu_val with
    | none => msub hcore0
        (msmul (1 / 2) (madd (mmul n (mmul n f_ab dens_b) ovlp) (mmul n (mmul n ovlp dens_b) f_ab)))
    | some mu => madd hcore0 (msmul mu (mmul n (mmul n ovlp dens_b) ovlp))
  let energy_a := init_mf.energy_elec dens_a v_a hcore_a_in_b
  let mol := { mol with nelectron := intTrunc (init_mf.mo_occ.take c_occ_a.length).sum }
  { mol := mol, densAB := dens_ab, densA := dens_a, densB := dens_b,
    vA := v_a, hcore := hcore_a_in_b, energyA := energy_a }

/-- The solver family of the truncated self-embedded solve (lines 193-200): DFT with
the same functional when the original solver has one, RHF otherwise, with the same
density fitting. -/
def initCfg (mf : MeanField) : SolverCfg :=
  { kind := match mf.xc with
            | some x => SolverKind.rks x
            | none => SolverKind.rhf,
    df := mf.with_df.isSome,
    auxbasis := mf.with_df }

/-- Lines 177-214 of `embed_proc.py`: the AO truncation stage.  The pair
`kernel(pure_d_a)` / `make_rdm1()` is modelled by the single oracle `scf_rdm1`. -/
def truncStage (ext : Oracles) (init_mf : MeanField) (active_atoms : Option (List ℕ))
    (trunc_lambda : ℚ) (p : PrepOut) : PrepOut :=
  let mol := molBuild p.mol (flatten_basis p.mol)
  let scr := ext.screen_aos mol active_atoms p.densA init_mf.get_ovlp trunc_lambda
  let active_aos := scr.1
  if active_aos.length ≠ mol.nao then
    let mol := molBuild mol (ext.truncate_basis mol scr.2)
    let cfg := initCfg init_mf
    let hcore := subMat p.hcore active_aos
    let pure_d_a := msmul 2 (ext.purify (msmul (1 / 2) (subMat p.densA active_aos))
      (subMat init_mf.get_ovlp active_aos))
    let dens_a := ext.scf_rdm1 cfg mol hcore pure_d_a
    let v_a := ext.scf_veff cfg mol dens_a
    let energy_a := ext.scf_energy_elec cfg mol dens_a v_a hcore
    { mol := mol, densAB := p.densAB, densA := dens_a, densB := p.densB,
      vA := v_a, hcore := hcore, energyA := energy_a }
  else
    { p with mol := mol }

/-- Python truthiness of the `trunc_lambda` argument: `if trunc_lambda:`. -/
def lamTruthy : Option ℚ → Bool
  | none => false
  | some q => decide (q ≠ 0)

/-- Everything `embedding_procedure` computes before method dispatch. -/
def prep (ext : Oracles) (init_mf : MeanField) (active_atoms : Option (List ℕ))
    (mu_val : Option ℚ) (trunc_lambda : Option ℚ) (distribute_mos : Partitioner) : PrepOut :=
  let p := prepCore ext init_mf active_atoms mu_val distribute_mos
  if lamTruthy trunc_lambda then truncStage ext init_mf active_atoms (trunc_lambda.getD 0) p
  else p

/-- The failure of `embed_meth.lower()` when `embed_meth` is `None`
(`AttributeError`); the error carries the state computed up to that point. -/
inductive EmbedErr where
  | noMethod (state : PrepOut) : EmbedErr

/-- The solver family of the embedded solve (lines 217-224): string dispatch on the
lower-cased method name, with the density fitting of the original solver. -/
def embedCfg (mf : MeanField) (meth : String) : SolverCfg :=
  { kind := if meth.toLower ∈ ["rhf", "mp2", "ccsd", "ccsd(t)"] then SolverKind.rhf
            else SolverKind.rks meth,
    df := mf.with_df.isSome,
    auxbasis := mf.with_df }

/-- `embedding_procedure` (lines 143-250): the prepared state, method dispatch, the
embedded solve, energy recombination, and the correlated corrections. -/
def embedding_procedure (ext : Oracles) (init_mf : MeanField) (active_atoms : Option (List ℕ))
    (embed_meth : Option String) (mu_val : Option ℚ) (trunc_lambda : Option ℚ)
    (distribute_mos : Partitioner) : Except EmbedErr (List ℚ) :=
  let p := prep ext init_mf active_atoms mu_val trunc_lambda distribute_mos
  match embed_meth with
  | none => Except.error (EmbedErr.noMethod p)
  | some meth =>
    let cfg := embedCfg init_mf meth
    let tot_energy_a_in_b := ext.scf_kernel cfg p.mol p.hcore p.densA
    let energy_a_in_b := tot_energy_a_in_b - ext.scf_energy_nuc cfg p.mol
    let results := [init_mf.e_tot - p.energyA + energy_a_in_b]
    let results :=
      if meth.toLower = "mp2" then
        results ++ [ext.mp2_e_corr cfg p.mol p.hcore p.densA]
      else if meth.toLower = "ccsd" ∨ meth.toLower = "ccsd(t)" then
        let emp2 := ext.ccsd_emp2 cfg p.mol p.hcore p.densA
        let results := results ++ [emp2] ++ [ext.ccsd_e_corr cfg p.mol p.hcore p.densA - emp2]
        if meth.toLower = "ccsd(t)" then results ++ [ext.ccsd_t cfg p.mol p.hcore p.densA]
        else results
      else results
    Except.ok results

/-- A concrete two-AO molecule with one contracted (two-primitive) shell. -/
def molTwo : Mol := { nelectron := 0, nao := 2, basis := [[1, 2]] }

/-- A concrete two-orbital mean-field record used to instantiate theorems. -/
def mfTwo : MeanField :=
  { mol := molTwo
    mo_coeff := [[1, 0], [0, 1]]
    mo_occ := [2, 2]
    get_ovlp := fun i j => if i = j then 1 else 0
    get_fock := fun _ _ => 0
    get_veff := fun _ => fun _ _ => 0
    energy_elec := fun _ _ _ => 0
    e_tot := 0
    offsets := [(0, 1), (1, 2)]
    xc := none
    with_df := none }

/-- A concrete, fully benign oracle record: the localization kernel is the identity,
the singular value decomposition returns `min rows cols` zero singular values and a
square zero right-vector matrix, `argpartition` picks index `0`, and AO screening
selects every AO. -/
def oracleBase : Oracles :=
  { loc := fun _ c => c
    sqrtm := fun M => M
    svd := fun r k _ => (List.replicate (min r k) 0, k, fun _ _ => 0)
    argpartLast := fun _ => 0
    screen_aos := fun m _ _ _ _ => (List.range m.nao, List.replicate m.nao true)
    truncate_basis := fun m _ => m.basis
    purify := fun d _ => d
    scf_kernel := fun _ _ _ _ => 0
    scf_rdm1 := fun _ _ _ d => d
    scf_veff := fun _ _ d => d
    scf_energy_elec := fun _ _ _ _ _ => 0
    scf_energy_nuc := fun _ _ => 0
    mp2_e_corr := fun _ _ _ _ => 0
    ccsd_emp2 := fun _ _ _ _ => 0
    ccsd_e_corr := fun _ _ _ _ => 0
    ccsd_t := fun _ _ _ _ => 0 }

/-- The base oracle with a localization kernel that performs a genuine (rational)
orthogonal rotation of the two occupied columns, as Pipek-Mezey localization does. -/
def oracleRotLoc : Oracles :=
  { oracleBase with loc := fun _ _ => [[3 / 5, 4 / 5], [-(4 / 5), 3 / 5]] }

/-- A concrete one-AO molecule. -/
def molOne : Mol := { nelectron := 0, nao := 1, basis := [[1]] }

/-- A concrete one-orbital mean-field record. -/
def mfOne : MeanField :=
  { mol := molOne
    mo_coeff := [[1]]
    mo_occ := [2]
    get_ovlp := fun i j => if i = j then 1 else 0
    get_fock := fun _ _ => 0
    get_veff := fun _ => fun _ _ => 0
    energy_elec := fun _ _ _ => 0
    e_tot := 0
    offsets := [(0, 1)]
    xc := none
    with_df := none }

/-- The base oracle with a singular value decomposition returning unit singular
values and identity right singular vectors (an orthogonal matrix). -/
def oracleSvdId : Oracles :=
  { oracleBase with
    svd := fun r k _ => (List.replicate (min r k) 1, k, fun i j => if i = j then 1 else 0) }

/-- The base oracle with a singular value decomposition returning the descending
spectrum `[3, 1]`, whose unique largest consecutive gap sits at index `0`. -/
def oracleSvdGap : Oracles :=
  { oracleBase with svd := fun _ k _ => ([3, 1], k, fun i j => if i = j then 1 else 0) }

/-- The embedding core Hamiltonian exactly as the spec words it: `H = F_ab - V_a`,
plus `mu (S D_b S)` when the level shift is a number, minus
`(1/2)(F_ab D_b S + S D_b F_ab)` when it is `None`. -/
def hcoreSpecFormula (n : ℕ) (f_ab v_a ovlp dens_b : Mat) : Option ℚ → Mat
  | some mu => madd (msub f_ab v_a) (msmul mu (mmul n (mmul n ovlp dens_b) ovlp))
  | none => msub (msub f_ab v_a)
      (msmul (1 / 2) (madd (mmul n (mmul n f_ab dens_b) ovlp) (mmul n (mmul n ovlp dens_b) f_ab)))

/-- Claim C1: for every call of `embedding_procedure`, the embedding core Hamiltonian
it builds equals `F_ab - V_a + mu (S D_b S)` when the level shift is a number and
`F_ab - V_a - (1/2)(F_ab D_b S + S D_b F_ab)` when it is `None`, where the frozen
density `D_b` is the matrix difference of the full and active densities, `V_a` is the
effective potential at the active density, and `S` is the overlap. -/
theorem c1_embedding_hcore (ext : Oracles) (mf : MeanField) (atoms : Option (List ℕ))
    (mu_val : Option ℚ) (dist : Partitioner) :
    (prepCore ext mf atoms mu_val dist).hcore
      = hcoreSpecFormula mf.mol.nao mf.get_fock
          (mf.get_veff (prepCore ext mf atoms mu_val dist).densA) mf.get_ovlp
          (msub (prepCore ext mf atoms mu_val dist).densAB
            (prepCore ext mf atoms mu_val dist).densA) mu_val := by
  cases mu_val <;> rfl

/-- Claim C2: every successful call of `embedding_procedure` returns as first tuple
entry `whole_system_total_energy - unembedded_active_electronic_energy +
(embedded_total_energy - embedded_nuclear_repulsion)`, the unembedded term being the
electronic energy of the active density under the embedding Hamiltonian before the
embedded solve. -/
theorem c2_energy_recombination (ext : Oracles) (mf : MeanField) (atoms : Option (List ℕ))
    (meth : String) (mu_val trunc_lambda : Option ℚ) (dist : Partitioner) :
    (embedding_procedure ext mf atoms (some meth) mu_val trunc_lambda dist).map
        (fun r => r.headD 0)
      = Except.ok (mf.e_tot - (prep ext mf atoms mu_val trunc_lambda dist).energyA
          + (ext.scf_kernel (embedCfg mf meth)
                (prep ext mf atoms mu_val trunc_lambda dist).mol
                (prep ext mf atoms mu_val trunc_lambda dist).hcore
                (prep ext mf atoms mu_val trunc_lambda dist).densA
             - ext.scf_energy_nuc (embedCfg mf meth)
                (prep ext mf atoms mu_val trunc_lambda dist).mol)) := by
  unfold embedding_procedure
  dsimp only
  split_ifs <;> rfl

/-- Claim C10: a call of `embedding_procedure` that leaves `embed_meth` as `None`
computes the entire pre-dispatch pipeline (partitioning, densities, embedding
Hamiltonian, truncation stage) and then fails at method dispatch, returning no
result tuple; the failure carries exactly the fully computed pre-dispatch state, so
no earlier validation rejects the missing method name. -/
theorem c10_no_method_fails_late (ext : Oracles) (mf : MeanField) (atoms : Option (List ℕ))
    (mu_val trunc_lambda : Option ℚ) (dist : Partitioner) :
    embedding_procedure ext mf atoms none mu_val trunc_lambda dist
      = Except.error (EmbedErr.noMethod (prep ext mf atoms mu_val trunc_lambda dist)) := rfl

theorem map_getD_range {α : Type} (l : List α) (d : α) :
    (List.range l.length).map (fun i => l.getD i d) = l := by
  induction l with
  | nil => rfl
  | cons a l ih =>
    rw [List.length_cons, List.range_succ_eq_map, List.map_cons, List.map_map]
    refine congrArg (a :: ·) ?_
    simpa [Function.comp_def, List.getD_cons_succ] using ih

theorem mem_mullikenActiveIdx (mf : MeanField) (t : ℚ) (c_occ : List Vec) (atoms : List ℕ)
    (i : ℕ) :
    i ∈ mullikenActiveIdx mf t c_occ atoms
      ↔ i < c_occ.length ∧ ∃ atom ∈ atoms,
          t < atomPop mf.mol.nao (make_dm [c_occ.getD i []] [mf.mo_occ.getD i 0]) mf.get_ovlp
              (mf.offsets.getD atom (0, 0)).1 (mf.offsets.getD atom (0, 0)).2 := by
  simp [mullikenActiveIdx, List.mem_filter, List.mem_range, mullikenIsActive, List.any_eq_true]

theorem mem_mullikenFrozenIdx (mf : MeanField) (t : ℚ) (c_occ : List Vec) (atoms : List ℕ)
    (i : ℕ) :
    i ∈ mullikenFrozenIdx mf t c_occ atoms
      ↔ i < c_occ.length ∧ ¬ ∃ atom ∈ atoms,
          t < atomPop mf.mol.nao (make_dm [c_occ.getD i []] [mf.mo_occ.getD i 0]) mf.get_ovlp
              (mf.offsets.getD atom (0, 0)).1 (mf.offsets.getD atom (0, 0)).2 := by
  simp [mullikenFrozenIdx, List.mem_filter, List.mem_range, List.contains, List.elem_eq_mem,
    mullikenActiveIdx, mullikenIsActive, List.any_eq_true]
  intro h1 h2
  exact absurd h1 (Nat.not_lt.mpr h2)

/-- Claim C5: for the closures of `mulliken_partition` and `occupancy_partition`, a
call with `active_atoms=None` returns the whole occupied set (localized when the flag
is set) as active with zero frozen columns, and a call with empty `active_atoms`
returns zero active columns with the whole occupied set frozen. -/
theorem c5_sentinel_behavior (t : ℚ) (localize : Bool) (ext : Oracles) (mf : MeanField)
    (c_occ0 : Option (List Vec)) :
    mulliken_partition t localize ext mf none c_occ0
        = (workingOcc ext mf localize c_occ0, [])
    ∧ mulliken_partition t localize ext mf (some []) c_occ0
        = ([], workingOcc ext mf localize c_occ0)
    ∧ occupancy_partition t localize ext mf none c_occ0
        = (workingOcc ext mf localize c_occ0, [])
    ∧ occupancy_partition t localize ext mf (some []) c_occ0
        = ([], workingOcc ext mf localize c_occ0) :=
  ⟨rfl, rfl, rfl, rfl⟩

/-- Claim C6: for a `mulliken_partition` closure with threshold `t` and a non-sentinel
atom list, an orbital lands in the active output exactly when some active atom has a
population (the Frobenius inner product of the orbital density and the overlap, both
restricted to the AO columns of that atom) strictly above `t`; all other orbitals are
frozen. -/
theorem c6_mulliken_population_criterion (t : ℚ) (localize : Bool) (ext : Oracles)
    (mf : MeanField) (atoms : List ℕ) (c_occ0 : Option (List Vec)) (c_occ : List Vec)
    (hne : atoms ≠ []) (hw : workingOcc ext mf localize c_occ0 = c_occ) :
    (mulliken_partition t localize ext mf (some atoms) c_occ0
      = ((mullikenActiveIdx mf t c_occ atoms).map fun i => c_occ.getD i [],
         (mullikenFrozenIdx mf t c_occ atoms).map fun i => c_occ.getD i []))
    ∧ (∀ i, i ∈ mullikenActiveIdx mf t c_occ atoms
        ↔ i < c_occ.length ∧ ∃ atom ∈ atoms,
            t < atomPop mf.mol.nao (make_dm [c_occ.getD i []] [mf.mo_occ.getD i 0]) mf.get_ovlp
                (mf.offsets.getD atom (0, 0)).1 (mf.offsets.getD atom (0, 0)).2)
    ∧ (∀ i, i ∈ mullikenFrozenIdx mf t c_occ atoms
        ↔ i < c_occ.length ∧ ¬ ∃ atom ∈ atoms,
            t < atomPop mf.mol.nao (make_dm [c_occ.getD i []] [mf.mo_occ.getD i 0]) mf.get_ovlp
                (mf.offsets.getD atom (0, 0)).1 (mf.offsets.getD atom (0, 0)).2) := by
  subst hw
  refine ⟨?_, fun i => mem_mullikenActiveIdx mf t _ atoms i,
    fun i => mem_mullikenFrozenIdx mf t _ atoms i⟩
  cases atoms with
  | nil => exact absurd rfl hne
  | cons a l => rfl

theorem workingOcc_length (ext : Oracles) (mf : MeanField) (localize : Bool) (C : List Vec)
    (hloc : (ext.loc mf.mol C).length = C.length) :
    (workingOcc ext mf localize (some C)).length = C.length := by
  cases localize <;> simp [workingOcc, hloc]

theorem mullikenFrozenIdx_eq_filter_not (mf : MeanField) (t : ℚ) (c_occ : List Vec)
    (atoms : List ℕ) :
    mullikenFrozenIdx mf t c_occ atoms
      = (List.range c_occ.length).filter fun i => !(mullikenIsActive mf t c_occ atoms i) := by
  unfold mullikenFrozenIdx
  refine List.filter_congr fun i hi => ?_
  have h : (mullikenActiveIdx mf t c_occ atoms).contains i
      = mullikenIsActive mf t c_occ atoms i := by
    simp [List.contains, List.elem_eq_mem, mullikenActiveIdx, List.mem_filter, hi]
  rw [h]

theorem filter_cols_perm (p : ℕ → Bool) (c_occ : List Vec) :
    (((List.range c_occ.length).filter p).map (fun i => c_occ.getD i [])
      ++ ((List.range c_occ.length).filter fun i => !(p i)).map fun i => c_occ.getD i []).Perm
      c_occ := by
  rw [← List.map_append]
  have hp := (List.filter_append_perm p (List.range c_occ.length)).map fun i => c_occ.getD i []
  rwa [map_getD_range] at hp

theorem mulliken_cols_perm (mf : MeanField) (t : ℚ) (c_occ : List Vec) (atoms : List ℕ) :
    ((mullikenActiveIdx mf t c_occ atoms).map (fun i => c_occ.getD i [])
      ++ (mullikenFrozenIdx mf t c_occ atoms).map fun i => c_occ.getD i []).Perm c_occ := by
  rw [mullikenFrozenIdx_eq_filter_not, mullikenActiveIdx]
  exact filter_cols_perm _ c_occ

theorem spadeNAct_bounds (argf : List ℚ → ℕ) (s_vals : List ℚ) (vdim n : ℕ)
    (hs : s_vals.length ≤ vdim) (hpad : s_vals.length ≠ vdim → s_vals.length + 1 ≤ vdim)
    (harg : ∀ l, l ≠ [] → argf l < l.length)
    (h : spadeNAct argf s_vals vdim = some n) : 1 ≤ n ∧ n ≤ vdim := by
  unfold spadeNAct at h
  split at h
  · cases h
    constructor
    · exact le_refl 1
    · omega
  · have hlen : (spadePadded s_vals vdim).length ≤ vdim := by
      unfold spadePadded
      split
      · next hne => simpa using hpad hne
      · exact hs
    dsimp only at h
    split at h
    · cases h
    · next hne =>
      cases h
      have hlt := harg _ hne
      have hdl : (codeDeltas (spadePadded s_vals vdim)).length
          = (spadePadded s_vals vdim).length - 1 := by
        simp [codeDeltas]
      rw [hdl] at hlt
      omega

theorem range_min_append_range' (n d : ℕ) (hn : n ≤ d) :
    List.range (min n d) ++ List.range' n (d - n) = List.range d := by
  rw [min_eq_left hn, List.range'_eq_map_range, ← List.range_add]
  exact congrArg List.range (by omega)

/-- Claim C3 (counterexample): the default-configured partitioner family localizes
before splitting, so the returned columns are a rotation of the input columns, not
the input columns themselves.  With a (rational, orthogonal) localization rotation,
the concatenated active and frozen outputs of a `mulliken_partition` closure are not
a permutation of the original occupied column set. -/
theorem c3_counterexample :
    ¬ (((mulliken_partition (2 / 5) true oracleRotLoc mfTwo none (some [[1, 0], [0, 1]])).1
          ++ (mulliken_partition (2 / 5) true oracleRotLoc mfTwo none
                (some [[1, 0], [0, 1]])).2).Perm ([[1, 0], [0, 1]] : List Vec)) := by
  intro h
  have he : (mulliken_partition (2 / 5) true oracleRotLoc mfTwo none (some [[1, 0], [0, 1]])).1
      ++ (mulliken_partition (2 / 5) true oracleRotLoc mfTwo none (some [[1, 0], [0, 1]])).2
      = [[3 / 5, 4 / 5], [-(4 / 5), 3 / 5]] := rfl
  rw [he] at h
  have hm := h.subset (List.mem_cons_self _ _)
  simp only [List.mem_cons, List.not_mem_nil, or_false] at hm
  rcases hm with hm | hm <;> · exact absurd hm (by norm_num)

/-- Claim C3 (amended): for every partitioner the active and frozen outputs jointly
cover the partitioned occupied set, with no column lost or duplicated and counts
summing to the input column count: for the two threshold closures the concatenated
outputs are a permutation of the occupied set they actually split (the input columns
rotated by the localization kernel when `localize` is set, exactly the input columns
otherwise), and for `spade_partition` they are exactly the input columns rotated by
the right singular vectors. -/
theorem c3_column_completeness (t : ℚ) (localize : Bool) (ext : Oracles) (mf : MeanField)
    (aa : Option (List ℕ)) (satoms : List ℕ) (C : List Vec)
    (hloc : (ext.loc mf.mol C).length = C.length)
    (s : List ℚ) (d : ℕ) (V : Mat)
    (hsvd : ext.svd (activeAOsOf mf satoms).length C.length
        (spadeOrthMat ext mf C (activeAOsOf mf satoms)) = (s, d, V))
    (hd : d = C.length) (hs : s.length = min (activeAOsOf mf satoms).length C.length)
    (harg : ∀ l, l ≠ [] → ext.argpartLast l < l.length) :
    ((mulliken_partition t localize ext mf aa (some C)).1.length
        + (mulliken_partition t localize ext mf aa (some C)).2.length = C.length
      ∧ ((mulliken_partition t localize ext mf aa (some C)).1
          ++ (mulliken_partition t localize ext mf aa (some C)).2).Perm
          (workingOcc ext mf localize (some C)))
    ∧ ((occupancy_partition t localize ext mf aa (some C)).1.length
        + (occupancy_partition t localize ext mf aa (some C)).2.length = C.length
      ∧ ((occupancy_partition t localize ext mf aa (some C)).1
          ++ (occupancy_partition t localize ext mf aa (some C)).2).Perm
          (workingOcc ext mf localize (some C)))
    ∧ (∀ pr, spade_partition ext mf (some satoms) (some C) = some pr →
        pr.1.length + pr.2.length = C.length
        ∧ pr.1 ++ pr.2 = (List.range C.length).map (rotCol mf.mol.nao C V)) := by
  have hwl := workingOcc_length ext mf localize C hloc
  refine ⟨?_, ?_, ?_⟩
  · match aa with
    | none =>
      refine ⟨by simpa [mulliken_partition] using hwl, ?_⟩
      simpa [mulliken_partition] using List.Perm.refl _
    | some [] =>
      refine ⟨by simpa [mulliken_partition] using hwl, ?_⟩
      simpa [mulliken_partition] using List.Perm.refl _
    | some (a :: l) =>
      have hp := mulliken_cols_perm mf t (workingOcc ext mf localize (some C)) (a :: l)
      have hred : mulliken_partition t localize ext mf (some (a :: l)) (some C)
          = ((mullikenActiveIdx mf t (workingOcc ext mf localize (some C)) (a :: l)).map
                fun i => (workingOcc ext mf localize (some C)).getD i [],
             (mullikenFrozenIdx mf t (workingOcc ext mf localize (some C)) (a :: l)).map
                fun i => (workingOcc ext mf localize (some C)).getD i []) := rfl
      rw [hred]
      dsimp only
      refine ⟨?_, hp⟩
      have hlen := hp.length_eq
      rw [List.length_append] at hlen
      omega
  · match aa with
    | none =>
      refine ⟨by simpa [occupancy_partition] using hwl, ?_⟩
      simpa [occupancy_partition] using List.Perm.refl _
    | some [] =>
      refine ⟨by simpa [occupancy_partition] using hwl, ?_⟩
      simpa [occupancy_partition] using List.Perm.refl _
    | some (a :: l) =>
      have hred : occupancy_partition t localize ext mf (some (a :: l)) (some C)
          = ((((List.range (workingOcc ext mf localize (some C)).length).partition
                (occIsActive mf t (workingOcc ext mf localize (some C))
                  (activeAOsOf mf (a :: l)))).1.map
                fun i => (workingOcc ext mf localize (some C)).getD i [],
              ((List.range (workingOcc ext mf localize (some C)).length).partition
                (occIsActive mf t (workingOcc ext mf localize (some C))
                  (activeAOsOf mf (a :: l)))).2.map
                fun i => (workingOcc ext mf localize (some C)).getD i [])) := rfl
      rw [hred, List.partition_eq_filter_filter]
      dsimp only
      simp only [Function.comp_def]
      have hp := filter_cols_perm
        (occIsActive mf t (workingOcc ext mf localize (some C)) (activeAOsOf mf (a :: l)))
        (workingOcc ext mf localize (some C))
      refine ⟨?_, hp⟩
      have hlen := hp.length_eq
      rw [List.length_append] at hlen
      omega
  · intro pr h
    have h1 : (ext.svd (activeAOsOf mf satoms).length C.length
        (spadeOrthMat ext mf C (activeAOsOf mf satoms))).1 = s := by rw [hsvd]
    have h2 : (ext.svd (activeAOsOf mf satoms).length C.length
        (spadeOrthMat ext mf C (activeAOsOf mf satoms))).2.1 = d := by rw [hsvd]
    have h3 : (ext.svd (activeAOsOf mf satoms).length C.length
        (spadeOrthMat ext mf C (activeAOsOf mf satoms))).2.2 = V := by rw [hsvd]
    unfold spade_partition at h
    dsimp only [Option.getD] at h
    rw [h1, h2, h3] at h
    split at h
    · exact absurd h (by simp)
    · next n_act heq =>
      have hmr : min (activeAOsOf mf satoms).length C.length ≤ C.length := min_le_right _ _
      have hsle : s.length ≤ d := by rw [hs, hd]; exact hmr
      have hpad : s.length ≠ d → s.length + 1 ≤ d := by
        intro hne
        rw [hs, hd] at hne ⊢
        omega
      have hb := spadeNAct_bounds ext.argpartLast s d n_act hsle hpad harg heq
      injection h with h
      subst h
      constructor
      · simp only [List.length_append, List.length_map, List.length_range, List.length_range']
        omega
      · rw [← List.map_append, range_min_append_range' n_act d hb.2, hd]

theorem spade_partition_some (ext : Oracles) (mf : MeanField) (satoms : List ℕ)
    (C : List Vec) (s : List ℚ) (d : ℕ) (V : Mat)
    (hsvd : ext.svd (activeAOsOf mf satoms).length C.length
        (spadeOrthMat ext mf C (activeAOsOf mf satoms)) = (s, d, V)) :
    spade_partition ext mf (some satoms) (some C)
      = (spadeNAct ext.argpartLast s d).map fun n_act =>
          ((List.range (min n_act d)).map (rotCol mf.mol.nao C V),
           (List.range' n_act (d - n_act)).map (rotCol mf.mol.nao C V)) := by
  unfold spade_partition
  dsimp only [Option.getD]
  rw [hsvd]
  dsimp only
  cases spadeNAct ext.argpartLast s d <;> rfl

/-- Claim C3 (witness). -/
theorem c3_witness :
    (mulliken_partition (2 / 5) false oracleBase mfTwo (some [0]) (some [[1, 0], [0, 1]])).1.length
      + (mulliken_partition (2 / 5) false oracleBase mfTwo (some [0])
          (some [[1, 0], [0, 1]])).2.length = ([[1, 0], [0, 1]] : List Vec).length :=
  (c3_column_completeness (2 / 5) false oracleBase mfTwo (some [0]) [0] [[1, 0], [0, 1]]
    rfl
    (List.replicate (min (activeAOsOf mfTwo [0]).length ([[1, 0], [0, 1]] : List Vec).length) 0)
    ([[1, 0], [0, 1]] : List Vec).length (fun _ _ => 0) rfl rfl (by simp)
    (fun l hl => List.length_pos.mpr hl)).1.1

theorem sum_map_range_eq (n : ℕ) (f : ℕ → ℚ) :
    ((List.range n).map f).sum = ∑ x ∈ Finset.range n, f x := by
  induction n with
  | zero => rfl
  | succ n ih =>
    rw [List.range_succ, List.map_append, List.sum_append, Finset.sum_range_succ, ih]
    simp

theorem make_dm_eq_sum_range (cols : List Vec) (occ : List ℚ) (i j : ℕ) :
    make_dm cols occ i j
      = ((List.range cols.length).map fun m =>
          occ.getD m 0 * (cols.getD m []).getD i 0 * (cols.getD m []).getD j 0).sum := by
  induction cols generalizing occ with
  | nil => rfl
  | cons c cs ih =>
    cases occ with
    | nil =>
      rw [show make_dm (c :: cs) [] i j = 0 from rfl]
      symm
      apply List.sum_eq_zero
      intro x hx
      simp only [List.mem_map] at hx
      obtain ⟨m, _, rfl⟩ := hx
      simp
    | cons o os =>
      have hL : make_dm (c :: cs) (o :: os) i j
          = o * c.getD i 0 * c.getD j 0 + make_dm cs os i j := rfl
      rw [hL, ih os]
      rw [List.length_cons, List.range_succ_eq_map, List.map_cons, List.map_map, List.sum_cons]
      simp only [Function.comp_def, List.getD_cons_succ, List.getD_cons_zero]

theorem make_dm_map_getD (cols : List Vec) (occ : List ℚ) (idx : List ℕ) (i j : ℕ) :
    make_dm (idx.map fun m => cols.getD m []) (idx.map fun m => occ.getD m 0) i j
      = (idx.map fun m =>
          occ.getD m 0 * (cols.getD m []).getD i 0 * (cols.getD m []).getD j 0).sum := by
  induction idx with
  | nil => rfl
  | cons a l ih =>
    have hL : make_dm ((a :: l).map fun m => cols.getD m [])
        ((a :: l).map fun m => occ.getD m 0) i j
        = occ.getD a 0 * (cols.getD a []).getD i 0 * (cols.getD a []).getD j 0
          + make_dm (l.map fun m => cols.getD m []) (l.map fun m => occ.getD m 0) i j := rfl
    rw [hL, ih, List.map_cons, List.sum_cons]

theorem make_dm_map_replicate (g : ℕ → Vec) (js : List ℕ) (ν : ℚ) (i j : ℕ) :
    make_dm (js.map g) (List.replicate (js.map g).length ν) i j
      = (js.map fun jj => ν * (g jj).getD i 0 * (g jj).getD j 0).sum := by
  induction js with
  | nil => rfl
  | cons a l ih =>
    have hL : make_dm ((a :: l).map g) (List.replicate ((a :: l).map g).length ν) i j
        = ν * (g a).getD i 0 * (g a).getD j 0
          + make_dm (l.map g) (List.replicate (l.map g).length ν) i j := rfl
    rw [hL, ih, List.map_cons, List.sum_cons]

theorem filter_sum_split (p : ℕ → Bool) (r : List ℕ) (f : ℕ → ℚ) :
    ((r.filter p).map f).sum + ((r.filter fun x => !(p x)).map f).sum = (r.map f).sum := by
  have h := ((List.filter_append_perm p r).map f).sum_eq
  rw [List.map_append, List.sum_append] at h
  exact h

theorem rotCol_getD (nao : ℕ) (C : List Vec) (V : Mat) (jj i : ℕ) (hi : i < nao) :
    (rotCol nao C V jj).getD i 0
      = ∑ m ∈ Finset.range C.length, (C.getD m []).getD i 0 * V jj m := by
  unfold rotCol
  rw [List.getD_eq_getElem?_getD, List.getElem?_map, List.getElem?_range hi]
  rfl

theorem make_dm_replicate_eq (C : List Vec) (ν : ℚ) (i j : ℕ) :
    make_dm C (List.replicate C.length ν) i j
      = ∑ m ∈ Finset.range C.length, ν * (C.getD m []).getD i 0 * (C.getD m []).getD j 0 := by
  rw [make_dm_eq_sum_range, sum_map_range_eq]
  refine Finset.sum_congr rfl fun m hm => ?_
  rw [Finset.mem_range] at hm
  rw [List.getD_eq_getElem?_getD, List.getElem?_replicate]
  simp [hm]

theorem sum_mul_orth (k : ℕ) (a b : ℕ → ℚ) (V : Mat) (ν : ℚ)
    (horth : ∀ m m', m < k → m' < k →
        (∑ jx ∈ Finset.range k, V jx m * V jx m') = if m = m' then 1 else 0) :
    (∑ jx ∈ Finset.range k,
        ν * (∑ m ∈ Finset.range k, a m * V jx m) * (∑ m ∈ Finset.range k, b m * V jx m))
      = ∑ m ∈ Finset.range k, ν * a m * b m := by
  have h1 : ∀ jx, ν * (∑ m ∈ Finset.range k, a m * V jx m)
        * (∑ m ∈ Finset.range k, b m * V jx m)
      = ∑ m ∈ Finset.range k, ∑ m' ∈ Finset.range k,
          ν * a m * b m' * (V jx m * V jx m') := by
    intro jx
    rw [mul_assoc, Finset.sum_mul_sum, Finset.mul_sum]
    refine Finset.sum_congr rfl fun m _ => ?_
    rw [Finset.mul_sum]
    refine Finset.sum_congr rfl fun m' _ => ?_
    ring
  have h2 : ∀ m ∈ Finset.range k,
      (∑ jx ∈ Finset.range k, ∑ m' ∈ Finset.range k, ν * a m * b m' * (V jx m * V jx m'))
        = ν * a m * b m := by
    intro m hm
    rw [Finset.sum_comm]
    have h3 : ∀ m' ∈ Finset.range k,
        (∑ jx ∈ Finset.range k, ν * a m * b m' * (V jx m * V jx m'))
          = if m = m' then ν * a m * b m' else 0 := by
      intro m' hm'
      rw [← Finset.mul_sum]
      rw [horth m m' (Finset.mem_range.mp hm) (Finset.mem_range.mp hm')]
      rw [mul_ite, mul_one, mul_zero]
    rw [Finset.sum_congr rfl h3]
    rw [Finset.sum_ite_eq (Finset.range k) m fun m' => ν * a m * b m']
    rw [if_pos hm]
  rw [Finset.sum_congr rfl fun jx _ => h1 jx, Finset.sum_comm]
  exact Finset.sum_congr rfl h2

/-- Claim C4: for each of the three partitioners, the density built from the active
output columns plus the density built from the frozen output columns equals, exactly
in rational arithmetic (hence within 1e-10), the density built from the full
partitioned occupied set; and in `embedding_procedure` the frozen density is by
construction the matrix difference of the full and active densities.  For the
threshold partitioners the occupations are matched to the output columns by orbital
index; for `spade_partition` the occupations are uniform (as for the doubly occupied
RHF orbitals this driver handles) and the right singular vectors are orthonormal (the
numpy contract). -/
theorem c4_density_additivity (t : ℚ) (localize : Bool) (ext : Oracles) (mf : MeanField)
    (atoms satoms : List ℕ) (C c_occ : List Vec) (occ : List ℚ) (ν : ℚ)
    (hne : atoms ≠ [])
    (hw : workingOcc ext mf localize (some C) = c_occ)
    (s : List ℚ) (d : ℕ) (V : Mat)
    (hsvd : ext.svd (activeAOsOf mf satoms).length C.length
        (spadeOrthMat ext mf C (activeAOsOf mf satoms)) = (s, d, V))
    (hd : d = C.length) (hs : s.length = min (activeAOsOf mf satoms).length C.length)
    (harg : ∀ l, l ≠ [] → ext.argpartLast l < l.length)
    (horth : ∀ m m', m < C.length → m' < C.length →
        (∑ jx ∈ Finset.range C.length, V jx m * V jx m') = if m = m' then 1 else 0) :
    (∀ i j,
      make_dm (mulliken_partition t localize ext mf (some atoms) (some C)).1
          ((mullikenActiveIdx mf t c_occ atoms).map fun m => occ.getD m 0) i j
        + make_dm (mulliken_partition t localize ext mf (some atoms) (some C)).2
          ((mullikenFrozenIdx mf t c_occ atoms).map fun m => occ.getD m 0) i j
        = make_dm c_occ occ i j)
    ∧ (∀ i j,
      make_dm (occupancy_partition t localize ext mf (some atoms) (some C)).1
          (((List.range c_occ.length).filter
              (occIsActive mf t c_occ (activeAOsOf mf atoms))).map fun m => occ.getD m 0) i j
        + make_dm (occupancy_partition t localize ext mf (some atoms) (some C)).2
          (((List.range c_occ.length).filter fun m =>
              !(occIsActive mf t c_occ (activeAOsOf mf atoms) m)).map fun m => occ.getD m 0) i j
        = make_dm c_occ occ i j)
    ∧ (∀ pr, spade_partition ext mf (some satoms) (some C) = some pr →
        ∀ i j, i < mf.mol.nao → j < mf.mol.nao →
          make_dm pr.1 (List.replicate pr.1.length ν) i j
            + make_dm pr.2 (List.replicate pr.2.length ν) i j
            = make_dm C (List.replicate C.length ν) i j)
    ∧ (∀ (aa2 : Option (List ℕ)) (mu_val : Option ℚ) (dist : Partitioner),
        (prepCore ext mf aa2 mu_val dist).densB
          = msub (prepCore ext mf aa2 mu_val dist).densAB
              (prepCore ext mf aa2 mu_val dist).densA) := by
  subst hw
  refine ⟨?_, ?_, ?_, fun _ _ _ => rfl⟩
  · intro i j
    cases atoms with
    | nil => exact absurd rfl hne
    | cons a l =>
      rw [show (mulliken_partition t localize ext mf (some (a :: l)) (some C)).1
            = (mullikenActiveIdx mf t (workingOcc ext mf localize (some C)) (a :: l)).map
                (fun m => (workingOcc ext mf localize (some C)).getD m []) from rfl,
          show (mulliken_partition t localize ext mf (some (a :: l)) (some C)).2
            = (mullikenFrozenIdx mf t (workingOcc ext mf localize (some C)) (a :: l)).map
                (fun m => (workingOcc ext mf localize (some C)).getD m []) from rfl]
      rw [make_dm_map_getD, make_dm_map_getD]
      rw [mullikenFrozenIdx_eq_filter_not]
      rw [show mullikenActiveIdx mf t (workingOcc ext mf localize (some C)) (a :: l)
            = (List.range (workingOcc ext mf localize (some C)).length).filter
                (mullikenIsActive mf t (workingOcc ext mf localize (some C)) (a :: l)) from rfl]
      rw [filter_sum_split, ← make_dm_eq_sum_range]
  · intro i j
    cases atoms with
    | nil => exact absurd rfl hne
    | cons a l =>
      rw [show (occupancy_partition t localize ext mf (some (a :: l)) (some C)).1
            = ((List.range (workingOcc ext mf localize (some C)).length).partition
                (occIsActive mf t (workingOcc ext mf localize (some C))
                  (activeAOsOf mf (a :: l)))).1.map
                (fun m => (workingOcc ext mf localize (some C)).getD m []) from rfl,
          show (occupancy_partition t localize ext mf (some (a :: l)) (some C)).2
            = ((List.range (workingOcc ext mf localize (some C)).length).partition
                (occIsActive mf t (workingOcc ext mf localize (some C))
                  (activeAOsOf mf (a :: l)))).2.map
                (fun m => (workingOcc ext mf localize (some C)).getD m []) from rfl]
      rw [List.partition_eq_filter_filter]
      dsimp only
      simp only [Function.comp_def]
      rw [make_dm_map_getD, make_dm_map_getD]
      rw [filter_sum_split, ← make_dm_eq_sum_range]
  · intro pr h i j hi hj
    rw [spade_partition_some ext mf satoms C s d V hsvd] at h
    cases hna : spadeNAct ext.argpartLast s d with
    | none =>
      rw [hna] at h
      simp at h
    | some n =>
      rw [hna] at h
      rw [Option.map_some'] at h
      injection h with h
      subst h
      have hmr : min (activeAOsOf mf satoms).length C.length ≤ C.length := min_le_right _ _
      have hsle : s.length ≤ d := by rw [hs, hd]; exact hmr
      have hpad2 : s.length ≠ d → s.length + 1 ≤ d := by
        intro hne2
        rw [hs, hd] at hne2 ⊢
        omega
      have hb := spadeNAct_bounds ext.argpartLast s d n hsle hpad2 harg hna
      dsimp only
      rw [min_eq_left hb.2]
      rw [make_dm_map_replicate, make_dm_map_replicate]
      rw [← List.sum_append, ← List.map_append]
      have hr : List.range n ++ List.range' n (d - n) = List.range d := by
        have h0 := range_min_append_range' n d hb.2
        rwa [min_eq_left hb.2] at h0
      rw [hr]
      subst hd
      rw [sum_map_range_eq]
      have hrc : ∀ jx ∈ Finset.range C.length,
          ν * (rotCol mf.mol.nao C V jx).getD i 0 * (rotCol mf.mol.nao C V jx).getD j 0
            = ν * (∑ m ∈ Finset.range C.length, (C.getD m []).getD i 0 * V jx m)
                * (∑ m ∈ Finset.range C.length, (C.getD m []).getD j 0 * V jx m) := by
        intro jx _
        rw [rotCol_getD mf.mol.nao C V jx i hi, rotCol_getD mf.mol.nao C V jx j hj]
      rw [Finset.sum_congr rfl hrc]
      rw [sum_mul_orth C.length _ _ V ν horth]
      rw [make_dm_replicate_eq]

/-- Claim C4 (witness). -/
theorem c4_witness :
    make_dm (mulliken_partition (2 / 5) false oracleSvdId mfTwo (some [0])
          (some [[1, 0], [0, 1]])).1
        ((mullikenActiveIdx mfTwo (2 / 5) [[1, 0], [0, 1]] [0]).map
          fun m => ([2, 2] : List ℚ).getD m 0) 0 0
      + make_dm (mulliken_partition (2 / 5) false oracleSvdId mfTwo (some [0])
          (some [[1, 0], [0, 1]])).2
        ((mullikenFrozenIdx mfTwo (2 / 5) [[1, 0], [0, 1]] [0]).map
          fun m => ([2, 2] : List ℚ).getD m 0) 0 0
      = make_dm [[1, 0], [0, 1]] [2, 2] 0 0 :=
  (c4_density_additivity (2 / 5) false oracleSvdId mfTwo [0] [0] [[1, 0], [0, 1]]
    [[1, 0], [0, 1]] [2, 2] 2 (by decide) rfl
    (List.replicate (min (activeAOsOf mfTwo [0]).length ([[1, 0], [0, 1]] : List Vec).length) 1)
    ([[1, 0], [0, 1]] : List Vec).length (fun i j => if i = j then 1 else 0) rfl rfl (by simp)
    (fun l hl => List.length_pos.mpr hl)
    (by
      intro m m' hm hm'
      have hm2 : m < 2 := hm
      have hm'2 : m' < 2 := hm'
      interval_cases m <;> interval_cases m' <;>
        norm_num [Finset.sum_range_succ])).1 0 0

theorem specGaps_eq_codeDeltas (s' : List ℚ) : specGaps s' = codeDeltas s' := by
  unfold specGaps codeDeltas
  refine List.map_congr_left fun i _ => ?_
  exact (neg_sub _ _).symm

/-- Claim C7: for `spade_partition` with more than one singular value, the active
orbital count is the index of the largest consecutive gap `g_i = s_i - s_{i+1}` of the
(zero-padded, as in the source) descending singular value list, plus one; with a
unique largest gap at index `i0`, exactly `i0 + 1` orbitals come out active.  The
`np.argpartition` oracle is constrained by its contract: it returns an in-range index
attaining the maximum. -/
theorem c7_spade_gap_selection (ext : Oracles) (mf : MeanField) (satoms : List ℕ)
    (C : List Vec) (s : List ℚ) (d : ℕ) (V : Mat) (i0 : ℕ)
    (hsvd : ext.svd (activeAOsOf mf satoms).length C.length
        (spadeOrthMat ext mf C (activeAOsOf mf satoms)) = (s, d, V))
    (hd : d = C.length) (hs : s.length = min (activeAOsOf mf satoms).length C.length)
    (hlen : 1 < s.length)
    (hi0 : i0 < (specGaps (spadePadded s d)).length)
    (huniq : ∀ jx, jx < (specGaps (spadePadded s d)).length → jx ≠ i0 →
        (specGaps (spadePadded s d)).getD jx 0 < (specGaps (spadePadded s d)).getD i0 0)
    (hargmem : ext.argpartLast (codeDeltas (spadePadded s d))
        < (codeDeltas (spadePadded s d)).length)
    (hargmax : ∀ jx, jx < (codeDeltas (spadePadded s d)).length →
        (codeDeltas (spadePadded s d)).getD jx 0
          ≤ (codeDeltas (spadePadded s d)).getD
              (ext.argpartLast (codeDeltas (spadePadded s d))) 0) :
    (spade_partition ext mf (some satoms) (some C)).map (fun pr => pr.1.length)
      = some (i0 + 1) := by
  rw [specGaps_eq_codeDeltas] at hi0 huniq
  rw [spade_partition_some ext mf satoms C s d V hsvd]
  have hne1 : ¬ (s.length = 1) := by omega
  have hdne : codeDeltas (spadePadded s d) ≠ [] := by
    intro hcon
    rw [hcon] at hi0
    simp at hi0
  have hna : spadeNAct ext.argpartLast s d
      = some (ext.argpartLast (codeDeltas (spadePadded s d)) + 1) := by
    unfold spadeNAct
    rw [if_neg hne1]
    dsimp only
    rw [if_neg hdne]
  rw [hna, Option.map_some', Option.map_some']
  have hargi0 : ext.argpartLast (codeDeltas (spadePadded s d)) = i0 := by
    by_contra hne2
    have h1 := huniq _ hargmem hne2
    have h2 := hargmax i0 hi0
    linarith
  have hsle : s.length ≤ d := by
    rw [hs, hd]
    exact min_le_right _ _
  have hplen : (spadePadded s d).length ≤ d := by
    unfold spadePadded
    split
    · next hx =>
      rw [List.length_append]
      have hlt : s.length < d := lt_of_le_of_ne hsle hx
      simpa using hlt
    · exact hsle
  have hcl : (codeDeltas (spadePadded s d)).length = (spadePadded s d).length - 1 := by
    simp [codeDeltas]
  rw [hcl] at hi0
  have hi0d : i0 + 1 ≤ d := by omega
  rw [hargi0]
  simp only [List.length_map, List.length_range]
  rw [min_eq_left hi0d]

/-- Claim C7 (witness). -/
theorem c7_witness :
    (spade_partition oracleSvdGap mfTwo (some [0, 1]) (some [[1, 0], [0, 1]])).map
        (fun pr => pr.1.length) = some (0 + 1) :=
  c7_spade_gap_selection oracleSvdGap mfTwo [0, 1] [[1, 0], [0, 1]] [3, 1]
    ([[1, 0], [0, 1]] : List Vec).length (fun i j => if i = j then 1 else 0) 0
    rfl rfl (by decide) (by decide) (by decide) (by decide) (by decide)
    (by
      intro jx hjx
      have h1 : (codeDeltas (spadePadded [3, 1] ([[1, 0], [0, 1]] : List Vec).length)).length
          = 1 := by decide
      rw [h1] at hjx
      have h2 : jx = 0 := by omega
      subst h2
      exact le_refl _)

theorem spadeNAct_nil (argf : List ℚ → ℕ) (vdim : ℕ) : spadeNAct argf [] vdim = none := by
  have hc : codeDeltas (spadePadded [] vdim) = [] := by
    unfold spadePadded
    split <;> simp [codeDeltas]
  unfold spadeNAct
  rw [if_neg (by simp)]
  dsimp only
  rw [if_pos hc]

/-- Claim C8: `spade_partition` never returns a partition for either sentinel: with
`active_atoms=None` it fails (iterating over `None` raises `TypeError`), and with an
empty active-atom collection the active AO block is empty, the singular value list is
empty (the numpy contract gives `min(0, k)` singular values), and `np.argpartition`
fails on the empty gap list (`ValueError`). -/
theorem c8_spade_sentinels_fail (ext : Oracles) (mf : MeanField) (c_occ0 : Option (List Vec))
    (hs : ∀ r k M, (ext.svd r k M).1.length = min r k) :
    spade_partition ext mf none c_occ0 = none
    ∧ spade_partition ext mf (some []) c_occ0 = none := by
  refine ⟨rfl, ?_⟩
  unfold spade_partition
  dsimp only
  have hsv : (ext.svd (activeAOsOf mf []).length (c_occ0.getD (occCols mf)).length
      (spadeOrthMat ext mf (c_occ0.getD (occCols mf)) (activeAOsOf mf []))).1 = [] := by
    have h := hs (activeAOsOf mf []).length (c_occ0.getD (occCols mf)).length
      (spadeOrthMat ext mf (c_occ0.getD (occCols mf)) (activeAOsOf mf []))
    have h0 : (activeAOsOf mf []).length = 0 := rfl
    rw [h0, Nat.zero_min] at h
    exact List.length_eq_zero.mp h
  rw [hsv, spadeNAct_nil]

/-- Claim C8 (witness). -/
theorem c8_witness :
    spade_partition oracleBase mfOne none (some [[1]]) = none
    ∧ spade_partition oracleBase mfOne (some []) (some [[1]]) = none :=
  c8_spade_sentinels_fail oracleBase mfOne (some [[1]]) (fun r k _ => by simp [oracleBase])

/-- Claim C6 (witness). -/
theorem c6_witness :
    mulliken_partition (2 / 5) false oracleBase mfTwo (some [0]) (some [[1, 0], [0, 1]])
      = ((mullikenActiveIdx mfTwo (2 / 5) [[1, 0], [0, 1]] [0]).map
            fun i => ([[1, 0], [0, 1]] : List Vec).getD i [],
         (mullikenFrozenIdx mfTwo (2 / 5) [[1, 0], [0, 1]] [0]).map
            fun i => ([[1, 0], [0, 1]] : List Vec).getD i []) :=
  (c6_mulliken_population_criterion (2 / 5) false oracleBase mfTwo [0]
    (some [[1, 0], [0, 1]]) [[1, 0], [0, 1]] (by decide) rfl).1

/-- Claim C9 (counterexample): the truncation stage is not a complete no-op when all
AOs are selected: the screening preparation has already rebuilt the molecule with the
flattened basis, so the molecular system carried into the embedded solve differs from
the one of a run without the truncation stage whenever the basis holds a contracted
(multi-primitive) shell. -/
theorem c9_counterexample :
    ¬ ((prep oracleBase mfTwo (some [0]) (some (10 ^ 6)) (some 1)
          (mulliken_partition (2 / 5) false)).mol
        = (prep oracleBase mfTwo (some [0]) (some (10 ^ 6)) none
          (mulliken_partition (2 / 5) false)).mol) := by
  intro h
  have hb := congrArg Mol.basis h
  have h1 : (prep oracleBase mfTwo (some [0]) (some (10 ^ 6)) (some 1)
      (mulliken_partition (2 / 5) false)).mol.basis = [[1], [2]] := rfl
  have h2 : (prep oracleBase mfTwo (some [0]) (some (10 ^ 6)) none
      (mulliken_partition (2 / 5) false)).mol.basis = [[1, 2]] := rfl
  rw [h1, h2] at hb
  simp at hb

/-- Claim C9 (amended): with a truncation threshold supplied (and nonzero, as Python
truthiness requires for the stage to engage), if AO screening selects all AOs then
the stage leaves the embedding Hamiltonian, the full/active/frozen densities, the
active effective potential, and the active electronic energy exactly as they were;
the molecular system carried into the embedded solve is unchanged except that its
basis has been rebuilt in the flattened single-primitive-per-shell form by the
screening preparation, which runs before the all-AOs check. -/
theorem c9_truncation_allao_amended (ext : Oracles) (mf : MeanField)
    (atoms : Option (List ℕ)) (mu_val : Option ℚ) (dist : Partitioner) (lam : ℚ)
    (hlam : lam ≠ 0)
    (hall : (ext.screen_aos
          (molBuild (prepCore ext mf atoms mu_val dist).mol
            (flatten_basis (prepCore ext mf atoms mu_val dist).mol))
          atoms (prepCore ext mf atoms mu_val dist).densA mf.get_ovlp lam).1.length
        = (molBuild (prepCore ext mf atoms mu_val dist).mol
            (flatten_basis (prepCore ext mf atoms mu_val dist).mol)).nao) :
    prep ext mf atoms mu_val (some lam) dist
      = { prepCore ext mf atoms mu_val dist with
          mol := molBuild (prepCore ext mf atoms mu_val dist).mol
            (flatten_basis (prepCore ext mf atoms mu_val dist).mol) } := by
  unfold prep
  have hl : lamTruthy (some lam) = true := by simp [lamTruthy, hlam]
  rw [hl, if_pos rfl]
  dsimp only [Option.getD]
  unfold truncStage
  dsimp only
  rw [if_neg (fun hcon => hcon hall)]

/-- Claim C9 (witness). -/
theorem c9_witness :
    prep oracleBase mfTwo (some [0]) (some (10 ^ 6)) (some 1) (mulliken_partition (2 / 5) false)
      = { prepCore oracleBase mfTwo (some [0]) (some (10 ^ 6))
            (mulliken_partition (2 / 5) false) with
          mol := molBuild
            (prepCore oracleBase mfTwo (some [0]) (some (10 ^ 6))
              (mulliken_partition (2 / 5) false)).mol
            (flatten_basis (prepCore oracleBase mfTwo (some [0]) (some (10 ^ 6))
              (mulliken_partition (2 / 5) false)).mol) } :=
  c9_truncation_allao_amended oracleBase mfTwo (some [0]) (some (10 ^ 6))
    (mulliken_partition (2 / 5) false) 1 (by norm_num) rfl
